import Mathlib

/-!
Verification of the RDF literal module (`src/term/src/literal.rs`).

The development shallowly embeds the module's data model and algorithms:

* the recursive NTriples escaping helpers `fmt_quoted_string` (over Unicode
  scalar values, i.e. `List Char`) and `io_quoted_string` (over raw bytes,
  i.e. `List Nat`, each byte `< 256`);
* the `Literal` data type, generic over a text-storage capability
  (`TermData`), with its `Kind` tagged union (`Lang` / `Dt`);
* equality, hashing, construction, ownership transforms and serialization.

External collaborators that are not part of the module (the IRI abstraction,
the `MownStr` borrow-or-own storage, the BCP47 validator and the namespace
constants) are modelled from the specification; each such definition carries
a doc comment starting with `Modelled from the spec:`.

The source's `fmt_quoted_string` scans `char_indices` of a `&str` and slices
at byte index `cut` and `cut + 1`; because the characters that trigger a cut
are one byte wide in UTF-8, slicing at `cut + 1` drops exactly the escaped
scalar, so the scalar-value embedding below is exact.  The byte-level
`io_quoted_string` is embedded verbatim over byte lists.
-/

set_option maxRecDepth 8000

/-! ## Definitions -/

/-- Character test from `fmt_quoted_string`:
`chr <= '\\' && (chr == '\n' || chr == '\r' || chr == '\\' || chr == '"')`. -/
def is_esc_char (c : Char) : Bool :=
  decide (c ≤ '\\') && (c == '\n' || c == '\r' || c == '\\' || c == '"')

/-- The two-character escape sequence written for the cut character in
`fmt_quoted_string`; the default case is unreachable in the algorithm
(the source panics there) and is given the harmless value `[]`. -/
def esc_seq (c : Char) : List Char :=
  if c = '\n' then ['\\', 'n']
  else if c = '\r' then ['\\', 'r']
  else if c = '"' then ['\\', '"']
  else if c = '\\' then ['\\', '\\']
  else []

/-- The scanning loop of `fmt_quoted_string`: returns the position of the
first character requiring escaping together with that character, or
(`length`, `'\x00'`) when none occurs — exactly the `cut` / `cutchar`
variables of the source. -/
def scan_cut : List Char → Nat × Char
  | [] => (0, Char.ofNat 0)
  | c :: rest =>
    if is_esc_char c then (0, c)
    else ((scan_cut rest).1 + 1, (scan_cut rest).2)

/-- Translation of `fmt_quoted_string`: write the unescaped prefix, then the
escape sequence for the cut character (when a cut occurred), then recurse on
the remainder after the cut. -/
def fmt_quoted_string (l : List Char) : List Char :=
  let cut := (scan_cut l).1
  let cutchar := (scan_cut l).2
  let head := l.take cut ++ (if cut < l.length then esc_seq cutchar else [])
  if h : cut + 1 ≥ l.length then head
  else head ++ fmt_quoted_string (l.drop (cut + 1))
termination_by l.length
decreasing_by
  simp only [List.length_drop]
  omega

/-- Byte test from `io_quoted_string`:
`chr <= b'\\' && (chr == b'\n' || chr == b'\r' || chr == b'\\' || chr == b'"')`. -/
def is_esc_byte (b : Nat) : Bool :=
  decide (b ≤ 92) && (b == 10 || b == 13 || b == 92 || b == 34)

/-- Byte-level escape sequence of `io_quoted_string` (`\n`, `\r`, `\"`, `\\`);
the default case is unreachable in the algorithm. -/
def esc_seq_byte (b : Nat) : List Nat :=
  if b = 10 then [92, 110]
  else if b = 13 then [92, 114]
  else if b = 34 then [92, 34]
  else if b = 92 then [92, 92]
  else []

/-- The scanning loop of `io_quoted_string`. -/
def scan_cut_byte : List Nat → Nat × Nat
  | [] => (0, 0)
  | b :: rest =>
    if is_esc_byte b then (0, b)
    else ((scan_cut_byte rest).1 + 1, (scan_cut_byte rest).2)

/-- Translation of `io_quoted_string`, operating on raw bytes. -/
def io_quoted_string (l : List Nat) : List Nat :=
  let cut := (scan_cut_byte l).1
  let cutchar := (scan_cut_byte l).2
  let head := l.take cut ++ (if cut < l.length then esc_seq_byte cutchar else [])
  if h : cut + 1 ≥ l.length then head
  else head ++ io_quoted_string (l.drop (cut + 1))
termination_by l.length
decreasing_by
  simp only [List.length_drop]
  omega

/-- Specification of per-character escaping: replace exactly newline,
carriage-return, double-quote and backslash by their two-character sequences
and pass every other character through. -/
def escapeChar (c : Char) : List Char :=
  if c = '\n' then ['\\', 'n']
  else if c = '\r' then ['\\', 'r']
  else if c = '"' then ['\\', '"']
  else if c = '\\' then ['\\', '\\']
  else [c]

/-- Character-by-character escaping of a whole text. -/
def escape_spec : List Char → List Char
  | [] => []
  | c :: rest => escapeChar c ++ escape_spec rest

/-- Specification of per-byte escaping. -/
def escapeByte (b : Nat) : List Nat :=
  if b = 10 then [92, 110]
  else if b = 13 then [92, 114]
  else if b = 34 then [92, 34]
  else if b = 92 then [92, 92]
  else [b]

/-- Byte-by-byte escaping of a whole byte string. -/
def escape_spec_byte : List Nat → List Nat
  | [] => []
  | b :: rest => escapeByte b ++ escape_spec_byte rest

/-- Inverse of `escapeChar` on the four escape sequences. -/
def unesc_char (c : Char) : Char :=
  if c = 'n' then '\n'
  else if c = 'r' then '\r'
  else c

/-- Un-escaping of the quoted-string portion of a serialized literal:
a backslash followed by `n`, `r`, `"` or `\` denotes the corresponding
single character. -/
def unescape : List Char → List Char
  | [] => []
  | [c] => [c]
  | a :: b :: rest =>
    if a = '\\' ∧ (b = 'n' ∨ b = 'r' ∨ b = '"' ∨ b = '\\') then
      unesc_char b :: unescape rest
    else
      a :: unescape (b :: rest)

/-- UTF-8 encoding of a Unicode scalar value, as the list of its bytes. -/
def utf8Char (c : Char) : List Nat :=
  let n := c.toNat
  if n < 128 then [n]
  else if n < 2048 then [192 + n / 64, 128 + n % 64]
  else if n < 65536 then [224 + n / 4096, 128 + n / 64 % 64, 128 + n % 64]
  else [240 + n / 262144, 128 + n / 4096 % 64, 128 + n / 64 % 64, 128 + n % 64]

/-- UTF-8 encoding of a character sequence. -/
def utf8_list : List Char → List Nat
  | [] => []
  | c :: rest => utf8Char c ++ utf8_list rest

/-- UTF-8 encoding of a string (`str::as_bytes` in the source). -/
def utf8_str (s : String) : List Nat := utf8_list s.data

/-- The text-storage capability contract (the `TermData` trait bound):
any storage type exposing a borrowed string view. -/
class TermData (TD : Type) where
  as_ref : TD → String

instance : TermData String := ⟨fun s => s⟩

/-- Modelled from the spec: the borrow-or-own storage type `MownStr`
(`crate::mown_str`, outside this module) — a text representation that is
either a borrowed view (`Ref`) or a fresh allocation (`Own`). -/
inductive MownStr where
  | Ref : String → MownStr
  | Own : String → MownStr

instance : TermData MownStr :=
  ⟨fun m => match m with | MownStr.Ref s => s | MownStr.Own s => s⟩

/-- Allocation-state introspection of `MownStr`:
`true` exactly for the borrowed (`Ref`) variant. -/
def MownStr.is_borrowed : MownStr → Bool
  | MownStr.Ref _ => true
  | MownStr.Own _ => false

/-- Modelled from the spec: the opaque IRI abstraction (`crate::Iri`,
outside this module), parametrized over the same storage type and carrying
its full text; equality, hashing and writing are exact on that text. -/
structure Iri (TD : Type) where
  iri_txt : TD

/-- Modelled from the spec: the IRI abstraction's equality (exact,
case-sensitive, across storage types). -/
def iri_eq {T U : Type} [TermData T] [TermData U] (a : Iri T) (b : Iri U) : Bool :=
  TermData.as_ref a.iri_txt == TermData.as_ref b.iri_txt

/-- Borrowed-string-backed view of an IRI (`Iri::as_ref_str`). -/
def Iri.as_ref_str {TD : Type} [TermData TD] (i : Iri TD) : Iri String :=
  ⟨TermData.as_ref i.iri_txt⟩

/-- Modelled from the spec: the IRI abstraction's own NTriples-compatible
text writer (`<` then the IRI text then `>`). -/
def Iri.write_fmt {TD : Type} [TermData TD] (i : Iri TD) : String :=
  "<" ++ TermData.as_ref i.iri_txt ++ ">"

/-- Modelled from the spec: the IRI abstraction's byte writer — the UTF-8
bytes of its text writer's output. -/
def Iri.write_io_bytes {TD : Type} [TermData TD] (i : Iri TD) : List Nat :=
  utf8_str (Iri.write_fmt i)

/-- Modelled from the spec: the IRI abstraction's hash contract — the bytes
it feeds to the hasher, a function of its text only (so equal IRIs hash
equally). -/
def Iri.hash_bytes {TD : Type} [TermData TD] (i : Iri TD) : List Nat :=
  utf8_str (TermData.as_ref i.iri_txt)

/-- Modelled from the spec: `Iri::clone_map`, applying the factory to the
borrowed text. -/
def Iri.clone_map {TD U : Type} [TermData TD] (i : Iri TD) (factory : String → U) : Iri U :=
  ⟨factory (TermData.as_ref i.iri_txt)⟩

/-- Modelled from the spec: `Iri::map_into` converting the storage into the
target storage type (here `String`, taking the borrowed view). -/
def Iri.map_into {TD : Type} [TermData TD] (i : Iri TD) : Iri String :=
  ⟨TermData.as_ref i.iri_txt⟩

/-- Modelled from the spec: the well-known constant `xsd:string`. -/
def xsd_string : Iri String := ⟨"http://www.w3.org/2001/XMLSchema#string"⟩

/-- Modelled from the spec: the well-known constant `rdf:langString`. -/
def rdf_langString : Iri String := ⟨"http://www.w3.org/1999/02/22-rdf-syntax-ns#langString"⟩

/-- The internal tagged union of a literal: a language tag or a datatype IRI
(`Kind` in the source). -/
inductive Kind (TD : Type) where
  | Lang : TD → Kind TD
  | Dt : Iri TD → Kind TD

/-- ASCII-only lowercasing of one character (`u8::to_ascii_lowercase`). -/
def ascii_lower (c : Char) : Char :=
  if 'A' ≤ c ∧ c ≤ 'Z' then Char.ofNat (c.toNat + 32) else c

/-- Modelled from the spec: `str::eq_ignore_ascii_case` — equal length and
pointwise equality after ASCII lowercasing. -/
def eq_ignore_ascii_case (a b : String) : Bool :=
  a.data.length == b.data.length &&
    (a.data.zip b.data).all fun p => ascii_lower p.1 == ascii_lower p.2

/-- ASCII-only lowercasing of a whole string (`str::to_ascii_lowercase`). -/
def to_ascii_lowercase (s : String) : String :=
  String.mk (s.data.map ascii_lower)

/-- Translation of `PartialEq for Kind`: `Lang` tags compare
ASCII-case-insensitively, `Dt` IRIs by the IRI abstraction's equality,
different variants never compare equal. -/
def Kind.beq {T U : Type} [TermData T] [TermData U] : Kind T → Kind U → Bool
  | Kind.Lang stag, Kind.Lang otag =>
    eq_ignore_ascii_case (TermData.as_ref stag) (TermData.as_ref otag)
  | Kind.Dt sdt, Kind.Dt odt => iri_eq sdt odt
  | _, _ => false

/-- The RDF literal: a lexical text and a kind (`Literal` in the source). -/
structure Literal (TD : Type) where
  txt : TD
  kind : Kind TD

/-- Translation of `PartialEq for Literal`: borrowed texts equal and kinds
equal. -/
def Literal.beq {T U : Type} [TermData T] [TermData U] (a : Literal T) (b : Literal U) : Bool :=
  TermData.as_ref a.txt == TermData.as_ref b.txt && Kind.beq a.kind b.kind

/-- Translation of `Hash for Literal`: the byte stream fed to the hasher —
the text's bytes, then either the ASCII-lowercased tag's bytes or the
datatype IRI's own hash contribution. -/
def Literal.hash_bytes {TD : Type} [TermData TD] (lit : Literal TD) : List Nat :=
  utf8_str (TermData.as_ref lit.txt) ++
    match lit.kind with
    | Kind.Lang tag => utf8_str (to_ascii_lowercase (TermData.as_ref tag))
    | Kind.Dt iri => Iri.hash_bytes iri

/-- Translation of `Literal::lang`. -/
def Literal.lang {TD : Type} : Literal TD → Option TD
  | ⟨_, Kind.Lang tag⟩ => some tag
  | _ => none

/-- Translation of `Literal::dt`: `rdf:langString` for language-tagged
literals, the stored IRI (as a borrowed-string-backed IRI) otherwise. -/
def Literal.dt {TD : Type} [TermData TD] (lit : Literal TD) : Iri String :=
  match lit.kind with
  | Kind.Lang _ => rdf_langString
  | Kind.Dt d => Iri.as_ref_str d

/-- Error taxonomy of the crate (`TermError`, outside this module), modelled
from the spec: the invalid-tag error carries the offending tag text and the
underlying grammar violation. -/
inductive TermError where
  | InvalidLanguageTag : String → String → TermError
  | UnexpectedKindOfTerm : String → String → TermError

/-- Translation of `Literal::new_lang`.  The BCP47 validator
(`tag.parse::<LangTag>()`, an external crate) is modelled from the spec as a
function argument returning the grammar violation on failure. -/
def Literal.new_lang (validate : String → Option String) (txt tag : String) :
    Except TermError (Literal String) :=
  match validate tag with
  | some err => Except.error (TermError.InvalidLanguageTag tag err)
  | none => Except.ok ⟨txt, Kind.Lang tag⟩

/-- Translation of `Literal::new_lang_unchecked` (the debug-only assertion
is compiled away in release builds and not modelled). -/
def Literal.new_lang_unchecked (txt tag : String) : Literal String :=
  ⟨txt, Kind.Lang tag⟩

/-- Translation of `Literal::new_dt`: always succeeds, stores the datatype
IRI converted into the literal's storage. -/
def Literal.new_dt {V : Type} [TermData V] (txt : String) (dt : Iri V) : Literal String :=
  ⟨txt, Kind.Dt (Iri.map_into dt)⟩

/-- Translation of `Literal::clone_map`: apply the factory to the borrowed
view of every text-bearing field. -/
def Literal.clone_map {TD U : Type} [TermData TD] (lit : Literal TD) (factory : String → U) : Literal U :=
  let txt := factory (TermData.as_ref lit.txt)
  let kind :=
    match lit.kind with
    | Kind.Lang tag => Kind.Lang (factory (TermData.as_ref tag))
    | Kind.Dt iri => Kind.Dt (Iri.clone_map iri factory)
  ⟨txt, kind⟩

/-- The implicit `From<&str>` coercion used by `clone_into`. -/
class FromBorrowed (U : Type) where
  from_str : String → U

/-- Modelled from the spec: `From<&str> for MownStr` borrows (zero-copy). -/
instance : FromBorrowed MownStr := ⟨MownStr.Ref⟩

instance : FromBorrowed String := ⟨fun s => s⟩

/-- Translation of `Literal::clone_into`: `clone_map` with the implicit
coercion as factory. -/
def Literal.clone_into {TD U : Type} [TermData TD] [FromBorrowed U] (lit : Literal TD) : Literal U :=
  Literal.clone_map lit FromBorrowed.from_str

/-- Translation of `Literal::write_fmt` (text-oriented writer). -/
def Literal.write_fmt {TD : Type} [TermData TD] (lit : Literal TD) : String :=
  let head := "\"" ++ String.mk (fmt_quoted_string (TermData.as_ref lit.txt).data)
  match lit.kind with
  | Kind.Lang tag => head ++ "\"@" ++ TermData.as_ref tag
  | Kind.Dt d =>
    if iri_eq xsd_string d = false then head ++ "\"^^" ++ Iri.write_fmt d
    else head ++ "\""

/-- Translation of `Literal::write_io` (byte-oriented writer); `34`, `64`,
`94` are the bytes of `"`, `@`, `^`. -/
def Literal.write_io_bytes {TD : Type} [TermData TD] (lit : Literal TD) : List Nat :=
  let head := [34] ++ io_quoted_string (utf8_str (TermData.as_ref lit.txt))
  match lit.kind with
  | Kind.Lang tag => head ++ [34, 64] ++ utf8_str (TermData.as_ref tag)
  | Kind.Dt d =>
    if iri_eq xsd_string d = false then head ++ [34, 94, 94] ++ Iri.write_io_bytes d
    else head ++ [34]

/-- The specification's notion of matching kinds: two `Lang` kinds match
iff their tags are equal ignoring ASCII case, two `Dt` kinds match iff their
IRIs are equal by the IRI abstraction's equality, and a `Lang` kind never
matches a `Dt` kind. -/
def kinds_match_spec {T U : Type} [TermData T] [TermData U] : Kind T → Kind U → Prop
  | Kind.Lang stag, Kind.Lang otag =>
    to_ascii_lowercase (TermData.as_ref stag) = to_ascii_lowercase (TermData.as_ref otag)
  | Kind.Dt sdt, Kind.Dt odt => iri_eq sdt odt = true
  | _, _ => False

/-- A concrete validator instance (accepting only `en-US`), used to
instantiate the abstract BCP47 validator in concrete evaluations. -/
def toy_validator (t : String) : Option String :=
  if t = "en-US" then none else some ("unexpected character")

/-! ## Theorems -/

theorem scan_cut_le (l : List Char) : (scan_cut l).1 ≤ l.length := by
  induction l with
  | nil => simp [scan_cut]
  | cons c rest ih =>
    simp only [scan_cut, List.length_cons]
    split
    · omega
    · simpa using Nat.succ_le_succ ih

theorem scan_cut_byte_le (l : List Nat) : (scan_cut_byte l).1 ≤ l.length := by
  induction l with
  | nil => simp [scan_cut_byte]
  | cons c rest ih =>
    simp only [scan_cut_byte, List.length_cons]
    split
    · omega
    · simpa using Nat.succ_le_succ ih

/-- Structure theorem for the scanner: either no character needs escaping
and the cut is the length, or the input splits as an escape-free prefix of
length `cut` followed by the (escapable) cut character. -/
theorem scan_cut_split (l : List Char) :
    ((scan_cut l).1 = l.length ∧ ∀ c ∈ l, is_esc_char c = false) ∨
    (∃ pre suf, l = pre ++ (scan_cut l).2 :: suf ∧ pre.length = (scan_cut l).1 ∧
      (∀ c ∈ pre, is_esc_char c = false) ∧ is_esc_char (scan_cut l).2 = true) := by
  induction l with
  | nil => left; simp [scan_cut]
  | cons c rest ih =>
    by_cases hc : is_esc_char c
    · right
      refine ⟨[], rest, ?_, ?_, ?_, ?_⟩ <;> simp [scan_cut, hc]
    · have hsc : scan_cut (c :: rest) = ((scan_cut rest).1 + 1, (scan_cut rest).2) := by
        simp [scan_cut, hc]
      rcases ih with ⟨hlen, hall⟩ | ⟨pre, suf, hsplit, hlen, hpre, hesc⟩
      · left
        constructor
        · rw [hsc]; simp [hlen]
        · intro x hx
          rcases List.mem_cons.mp hx with h | h
          · subst h; simpa using hc
          · exact hall x h
      · right
        refine ⟨c :: pre, suf, ?_, ?_, ?_, ?_⟩
        · rw [hsc]
          simp only [List.cons_append]
          exact congrArg (List.cons c) hsplit
        · rw [hsc]; simp [← hlen]
        · intro x hx
          rcases List.mem_cons.mp hx with h | h
          · subst h; simpa using hc
          · exact hpre x h
        · rw [hsc]; exact hesc

theorem scan_cut_byte_split (l : List Nat) :
    ((scan_cut_byte l).1 = l.length ∧ ∀ b ∈ l, is_esc_byte b = false) ∨
    (∃ pre suf, l = pre ++ (scan_cut_byte l).2 :: suf ∧ pre.length = (scan_cut_byte l).1 ∧
      (∀ b ∈ pre, is_esc_byte b = false) ∧ is_esc_byte (scan_cut_byte l).2 = true) := by
  induction l with
  | nil => left; simp [scan_cut_byte]
  | cons c rest ih =>
    by_cases hc : is_esc_byte c
    · right
      refine ⟨[], rest, ?_, ?_, ?_, ?_⟩ <;> simp [scan_cut_byte, hc]
    · have hsc : scan_cut_byte (c :: rest) = ((scan_cut_byte rest).1 + 1, (scan_cut_byte rest).2) := by
        simp [scan_cut_byte, hc]
      rcases ih with ⟨hlen, hall⟩ | ⟨pre, suf, hsplit, hlen, hpre, hesc⟩
      · left
        constructor
        · rw [hsc]; simp [hlen]
        · intro x hx
          rcases List.mem_cons.mp hx with h | h
          · subst h; simpa using hc
          · exact hall x h
      · right
        refine ⟨c :: pre, suf, ?_, ?_, ?_, ?_⟩
        · rw [hsc]
          simp only [List.cons_append]
          exact congrArg (List.cons c) hsplit
        · rw [hsc]; simp [← hlen]
        · intro x hx
          rcases List.mem_cons.mp hx with h | h
          · subst h; simpa using hc
          · exact hpre x h
        · rw [hsc]; exact hesc

theorem esc_char_cases {c : Char} (h : is_esc_char c = true) :
    c = '\n' ∨ c = '\r' ∨ c = '\\' ∨ c = '"' := by
  simp only [is_esc_char, Bool.and_eq_true, Bool.or_eq_true, beq_iff_eq] at h
  tauto

theorem esc_byte_cases {b : Nat} (h : is_esc_byte b = true) :
    b = 10 ∨ b = 13 ∨ b = 92 ∨ b = 34 := by
  simp only [is_esc_byte, Bool.and_eq_true, Bool.or_eq_true, beq_iff_eq] at h
  tauto

theorem escapeChar_of_not_esc {c : Char} (h : is_esc_char c = false) :
    escapeChar c = [c] := by
  have h1 : c ≠ '\n' := by rintro rfl; simp [is_esc_char] at h
  have h2 : c ≠ '\r' := by rintro rfl; simp [is_esc_char] at h
  have h3 : c ≠ '"' := by rintro rfl; simp [is_esc_char] at h
  have h4 : c ≠ '\\' := by rintro rfl; simp [is_esc_char] at h
  simp [escapeChar, h1, h2, h3, h4]

theorem escapeByte_of_not_esc {b : Nat} (h : is_esc_byte b = false) :
    escapeByte b = [b] := by
  have h1 : b ≠ 10 := by rintro rfl; simp [is_esc_byte] at h
  have h2 : b ≠ 13 := by rintro rfl; simp [is_esc_byte] at h
  have h3 : b ≠ 34 := by rintro rfl; simp [is_esc_byte] at h
  have h4 : b ≠ 92 := by rintro rfl; simp [is_esc_byte] at h
  simp [escapeByte, h1, h2, h3, h4]

theorem esc_seq_eq_escapeChar {c : Char} (h : is_esc_char c = true) :
    esc_seq c = escapeChar c := by
  rcases esc_char_cases h with rfl | rfl | rfl | rfl <;> rfl

theorem esc_seq_byte_eq_escapeByte {b : Nat} (h : is_esc_byte b = true) :
    esc_seq_byte b = escapeByte b := by
  rcases esc_byte_cases h with rfl | rfl | rfl | rfl <;> rfl

theorem escape_spec_append (a b : List Char) :
    escape_spec (a ++ b) = escape_spec a ++ escape_spec b := by
  induction a with
  | nil => rfl
  | cons c rest ih => simp [escape_spec, ih]

theorem escape_spec_byte_append (a b : List Nat) :
    escape_spec_byte (a ++ b) = escape_spec_byte a ++ escape_spec_byte b := by
  induction a with
  | nil => rfl
  | cons c rest ih => simp [escape_spec_byte, ih]

theorem escape_spec_all_not {l : List Char} (h : ∀ c ∈ l, is_esc_char c = false) :
    escape_spec l = l := by
  induction l with
  | nil => rfl
  | cons c rest ih =>
    have hc := h c (List.mem_cons_self c rest)
    simp [escape_spec, escapeChar_of_not_esc hc, ih fun x hx => h x (List.mem_cons_of_mem c hx)]

theorem escape_spec_byte_all_not {l : List Nat} (h : ∀ b ∈ l, is_esc_byte b = false) :
    escape_spec_byte l = l := by
  induction l with
  | nil => rfl
  | cons c rest ih =>
    have hc := h c (List.mem_cons_self c rest)
    simp [escape_spec_byte, escapeByte_of_not_esc hc, ih fun x hx => h x (List.mem_cons_of_mem c hx)]

theorem drop_len_succ {α : Type} (pre : List α) (c : α) (suf : List α) :
    (pre ++ c :: suf).drop (pre.length + 1) = suf := by
  induction pre with
  | nil => simp
  | cons a rest ih => simpa using ih

theorem take_len_append {α : Type} (pre : List α) (rest : List α) :
    (pre ++ rest).take pre.length = pre := by
  induction pre with
  | nil => simp
  | cons a p ih => simpa using ih

theorem fmt_quoted_string_unfold (l : List Char) :
    fmt_quoted_string l =
      (l.take (scan_cut l).1 ++ (if (scan_cut l).1 < l.length then esc_seq (scan_cut l).2 else [])) ++
      (if (scan_cut l).1 + 1 ≥ l.length then [] else fmt_quoted_string (l.drop ((scan_cut l).1 + 1))) := by
  rw [fmt_quoted_string]
  by_cases h : (scan_cut l).1 + 1 ≥ l.length <;> simp [h]

theorem io_quoted_string_unfold (l : List Nat) :
    io_quoted_string l =
      (l.take (scan_cut_byte l).1 ++ (if (scan_cut_byte l).1 < l.length then esc_seq_byte (scan_cut_byte l).2 else [])) ++
      (if (scan_cut_byte l).1 + 1 ≥ l.length then [] else io_quoted_string (l.drop ((scan_cut_byte l).1 + 1))) := by
  rw [io_quoted_string]
  by_cases h : (scan_cut_byte l).1 + 1 ≥ l.length <;> simp [h]

theorem fmt_eq_escape_aux : ∀ (n : Nat) (l : List Char), l.length ≤ n →
    fmt_quoted_string l = escape_spec l := by
  intro n
  induction n with
  | zero =>
    intro l hl
    have hnil : l = [] := List.eq_nil_of_length_eq_zero (Nat.le_zero.mp hl)
    subst hnil
    rw [fmt_quoted_string_unfold]
    simp [scan_cut, escape_spec]
  | succ n ih =>
    intro l hl
    rcases scan_cut_split l with ⟨hlen, hall⟩ | ⟨pre, suf, hsplit, hlen, hpre, hesc⟩
    · rw [fmt_quoted_string_unfold, hlen]
      simp [escape_spec_all_not hall]
    · have hl_len : l.length = pre.length + suf.length + 1 := by
        rw [hsplit]; simp; omega
      have hcut_lt : (scan_cut l).1 < l.length := by omega
      have htake : l.take (scan_cut l).1 = pre := by
        rw [← hlen]
        conv_lhs => rw [hsplit]
        exact take_len_append pre _
      have hdrop : l.drop ((scan_cut l).1 + 1) = suf := by
        rw [← hlen]
        conv_lhs => rw [hsplit]
        exact drop_len_succ pre _ suf
      have hspec : escape_spec l = pre ++ (escapeChar (scan_cut l).2 ++ escape_spec suf) := by
        conv_lhs => rw [hsplit]
        rw [escape_spec_append, escape_spec_all_not hpre]
        rfl
      rw [fmt_quoted_string_unfold, htake, hdrop, if_pos hcut_lt, esc_seq_eq_escapeChar hesc,
        hspec]
      by_cases hend : (scan_cut l).1 + 1 ≥ l.length
      · have hsuf : suf = [] := by
          have := List.eq_nil_of_length_eq_zero (l := suf) (by omega)
          exact this
        subst hsuf
        simp [hend, escape_spec]
      · have hsuf_le : suf.length ≤ n := by omega
        rw [if_neg hend, ih suf hsuf_le]
        simp

theorem fmt_quoted_string_eq_spec (l : List Char) :
    fmt_quoted_string l = escape_spec l :=
  fmt_eq_escape_aux l.length l (Nat.le_refl _)

theorem io_eq_escape_aux : ∀ (n : Nat) (l : List Nat), l.length ≤ n →
    io_quoted_string l = escape_spec_byte l := by
  intro n
  induction n with
  | zero =>
    intro l hl
    have hnil : l = [] := List.eq_nil_of_length_eq_zero (Nat.le_zero.mp hl)
    subst hnil
    rw [io_quoted_string_unfold]
    simp [scan_cut_byte, escape_spec_byte]
  | succ n ih =>
    intro l hl
    rcases scan_cut_byte_split l with ⟨hlen, hall⟩ | ⟨pre, suf, hsplit, hlen, hpre, hesc⟩
    · rw [io_quoted_string_unfold, hlen]
      simp [escape_spec_byte_all_not hall]
    · have hl_len : l.length = pre.length + suf.length + 1 := by
        rw [hsplit]; simp; omega
      have hcut_lt : (scan_cut_byte l).1 < l.length := by omega
      have htake : l.take (scan_cut_byte l).1 = pre := by
        rw [← hlen]
        conv_lhs => rw [hsplit]
        exact take_len_append pre _
      have hdrop : l.drop ((scan_cut_byte l).1 + 1) = suf := by
        rw [← hlen]
        conv_lhs => rw [hsplit]
        exact drop_len_succ pre _ suf
      have hspec : escape_spec_byte l = pre ++ (escapeByte (scan_cut_byte l).2 ++ escape_spec_byte suf) := by
        conv_lhs => rw [hsplit]
        rw [escape_spec_byte_append, escape_spec_byte_all_not hpre]
        rfl
      rw [io_quoted_string_unfold, htake, hdrop, if_pos hcut_lt, esc_seq_byte_eq_escapeByte hesc,
        hspec]
      by_cases hend : (scan_cut_byte l).1 + 1 ≥ l.length
      · have hsuf : suf = [] := by
          have := List.eq_nil_of_length_eq_zero (l := suf) (by omega)
          exact this
        subst hsuf
        simp [hend, escape_spec_byte]
      · have hsuf_le : suf.length ≤ n := by omega
        rw [if_neg hend, ih suf hsuf_le]
        simp

theorem io_quoted_string_eq_spec (l : List Nat) :
    io_quoted_string l = escape_spec_byte l :=
  io_eq_escape_aux l.length l (Nat.le_refl _)

theorem unescape_escapeChar (c : Char) (L : List Char) :
    unescape (escapeChar c ++ L) = c :: unescape L := by
  by_cases hc : is_esc_char c
  · rcases esc_char_cases hc with rfl | rfl | rfl | rfl <;>
      simp [escapeChar, unescape, unesc_char]
  · have hne : c ≠ '\\' := by rintro rfl; simp [is_esc_char] at hc
    rw [escapeChar_of_not_esc (Bool.of_not_eq_true hc)]
    cases L with
    | nil => simp [unescape]
    | cons d L2 => simp [unescape, hne]

theorem unescape_escape_spec (l : List Char) :
    unescape (escape_spec l) = l := by
  induction l with
  | nil => rfl
  | cons c rest ih =>
    show unescape (escapeChar c ++ escape_spec rest) = c :: rest
    rw [unescape_escapeChar, ih]

theorem utf8_list_append (a b : List Char) :
    utf8_list (a ++ b) = utf8_list a ++ utf8_list b := by
  induction a with
  | nil => rfl
  | cons c rest ih => simp [utf8_list, ih]

/-- Every byte of the UTF-8 encoding of a non-ASCII scalar is `≥ 128`,
hence never one of the four escapable bytes (all `≤ 92`). -/
theorem utf8Char_high {c : Char} (h : ¬ c.toNat < 128) :
    ∀ b ∈ utf8Char c, 128 ≤ b := by
  intro b hb
  simp only [utf8Char] at hb
  split at hb
  · omega
  · split at hb
    · rcases List.mem_cons.mp hb with rfl | hb
      · omega
      · rcases List.mem_cons.mp hb with rfl | hb
        · omega
        · simp at hb
    · split at hb <;>
      · repeat'
          first
          | (rcases List.mem_cons.mp hb with rfl | hb; · omega)
          | simp at hb

theorem toNat_eq_char {c d : Char} (h : c.toNat = d.toNat) : c = d := by
  rw [← Char.ofNat_toNat c, ← Char.ofNat_toNat d, h]

/-- Byte-level and character-level escapability agree through UTF-8. -/
theorem is_esc_byte_toNat (c : Char) :
    is_esc_byte c.toNat = is_esc_char c := by
  by_cases hc : is_esc_char c
  · rcases esc_char_cases hc with rfl | rfl | rfl | rfl <;> simp [hc] <;> decide
  · have h10 : c.toNat ≠ 10 := by
      intro h
      have hcn : c = '\n' := toNat_eq_char (show c.toNat = ('\n').toNat by rw [h]; decide)
      exact hc (by rw [hcn]; decide)
    have h13 : c.toNat ≠ 13 := by
      intro h
      have hcn : c = '\r' := toNat_eq_char (show c.toNat = ('\r').toNat by rw [h]; decide)
      exact hc (by rw [hcn]; decide)
    have h34 : c.toNat ≠ 34 := by
      intro h
      have hcn : c = '"' := toNat_eq_char (show c.toNat = ('"').toNat by rw [h]; decide)
      exact hc (by rw [hcn]; decide)
    have h92 : c.toNat ≠ 92 := by
      intro h
      have hcn : c = '\\' := toNat_eq_char (show c.toNat = ('\\').toNat by rw [h]; decide)
      exact hc (by rw [hcn]; decide)
    simp only [Bool.not_eq_true] at hc
    rw [hc]
    simp [is_esc_byte, h10, h13, h34, h92]

/-- Per-character commutation of escaping with UTF-8 encoding. -/
theorem escape_byte_utf8Char (c : Char) :
    escape_spec_byte (utf8Char c) = utf8_list (escapeChar c) := by
  by_cases hc : is_esc_char c
  · rcases esc_char_cases hc with rfl | rfl | rfl | rfl <;> decide
  · by_cases hlow : c.toNat < 128
    · have hesc : is_esc_byte c.toNat = false := by
        rw [is_esc_byte_toNat]
        exact Bool.of_not_eq_true hc
      rw [escapeChar_of_not_esc (Bool.of_not_eq_true hc)]
      simp only [utf8Char, if_pos hlow, utf8_list]
      simp [escape_spec_byte, escapeByte_of_not_esc hesc]
    · have hhigh := utf8Char_high hlow
      have hall : ∀ b ∈ utf8Char c, is_esc_byte b = false := by
        intro b hb
        have := hhigh b hb
        simp only [is_esc_byte]
        have : ¬ b ≤ 92 := by omega
        simp [this]
      rw [escapeChar_of_not_esc (Bool.of_not_eq_true hc)]
      rw [escape_spec_byte_all_not hall]
      simp [utf8_list]

/-- Escaping commutes with UTF-8 encoding on whole texts. -/
theorem escape_byte_utf8_list (l : List Char) :
    escape_spec_byte (utf8_list l) = utf8_list (escape_spec l) := by
  induction l with
  | nil => rfl
  | cons c rest ih =>
    show escape_spec_byte (utf8Char c ++ utf8_list rest) = utf8_list (escapeChar c ++ escape_spec rest)
    rw [escape_spec_byte_append, utf8_list_append, escape_byte_utf8Char, ih]

/-- The byte-oriented escaper applied to the UTF-8 bytes of a text produces
exactly the UTF-8 bytes of what the character-oriented escaper produces. -/
theorem io_fmt_quoted_string_utf8 (l : List Char) :
    io_quoted_string (utf8_list l) = utf8_list (fmt_quoted_string l) := by
  rw [io_quoted_string_eq_spec, fmt_quoted_string_eq_spec, escape_byte_utf8_list]

theorem map_lower_iff : ∀ (x y : List Char),
    (x.length == y.length && (x.zip y).all fun p => ascii_lower p.1 == ascii_lower p.2) = true
      ↔ x.map ascii_lower = y.map ascii_lower := by
  intro x
  induction x with
  | nil => intro y; cases y <;> simp
  | cons c xs ih =>
    intro y
    cases y with
    | nil => simp
    | cons d ys =>
      simp only [List.length_cons, List.zip_cons_cons, List.all_cons, List.map_cons,
        Bool.and_eq_true, beq_iff_eq, List.cons.injEq]
      rw [← ih ys]
      simp only [Bool.and_eq_true, beq_iff_eq, add_left_inj]
      tauto

theorem eq_ignore_ascii_case_iff (a b : String) :
    eq_ignore_ascii_case a b = true ↔ to_ascii_lowercase a = to_ascii_lowercase b := by
  rw [show eq_ignore_ascii_case a b =
      (a.data.length == b.data.length &&
        (a.data.zip b.data).all fun p => ascii_lower p.1 == ascii_lower p.2) from rfl]
  rw [map_lower_iff]
  constructor
  · intro h
    show String.mk _ = String.mk _
    rw [h]
  · intro h
    exact congrArg String.data h

theorem utf8_str_append (s t : String) :
    utf8_str (s ++ t) = utf8_str s ++ utf8_str t := by
  simp [utf8_str, String.data_append, utf8_list_append]

theorem utf8_str_mk (l : List Char) : utf8_str (String.mk l) = utf8_list l := rfl

/-- Shape of the text-oriented writer's output, with the escaping expressed
character by character. -/
theorem write_fmt_data {TD : Type} [TermData TD] (lit : Literal TD) :
    (Literal.write_fmt lit).data =
      ('"' :: escape_spec (TermData.as_ref lit.txt).data) ++ ('"' ::
        (match lit.kind with
         | Kind.Lang tag => '@' :: (TermData.as_ref tag).data
         | Kind.Dt d =>
           if iri_eq xsd_string d = true then []
           else '^' :: '^' :: (Iri.write_fmt d).data)) := by
  obtain ⟨txt, k⟩ := lit
  cases k with
  | Lang tag =>
    show ("\"" ++ String.mk (fmt_quoted_string (TermData.as_ref txt).data) ++ "\"@" ++
        TermData.as_ref tag).data = _
    simp [String.data_append, fmt_quoted_string_eq_spec]
  | Dt d =>
    by_cases h : iri_eq xsd_string d
    · show (if iri_eq xsd_string d = false then _ else
          ("\"" ++ String.mk (fmt_quoted_string (TermData.as_ref txt).data) ++ "\"")).data = _
      rw [h]
      simp [String.data_append, fmt_quoted_string_eq_spec, h]
    · have h0 : iri_eq xsd_string d = false := Bool.of_not_eq_true h
      show (if iri_eq xsd_string d = false then
          ("\"" ++ String.mk (fmt_quoted_string (TermData.as_ref txt).data) ++ "\"^^" ++
            Iri.write_fmt d) else _).data = _
      rw [h0]
      simp [String.data_append, fmt_quoted_string_eq_spec, h0]

/-- Shape of the byte-oriented writer's output, with the escaping expressed
byte by byte. -/
theorem write_io_bytes_data {TD : Type} [TermData TD] (lit : Literal TD) :
    Literal.write_io_bytes lit =
      (34 :: escape_spec_byte (utf8_str (TermData.as_ref lit.txt))) ++ (34 ::
        (match lit.kind with
         | Kind.Lang tag => 64 :: utf8_str (TermData.as_ref tag)
         | Kind.Dt d =>
           if iri_eq xsd_string d = true then []
           else 94 :: 94 :: Iri.write_io_bytes d)) := by
  obtain ⟨txt, k⟩ := lit
  cases k with
  | Lang tag =>
    show [34] ++ io_quoted_string (utf8_str (TermData.as_ref txt)) ++ [34, 64] ++
        utf8_str (TermData.as_ref tag) = _
    simp [io_quoted_string_eq_spec]
  | Dt d =>
    by_cases h : iri_eq xsd_string d
    · show (if iri_eq xsd_string d = false then _ else
          [34] ++ io_quoted_string (utf8_str (TermData.as_ref txt)) ++ [34]) = _
      rw [h]
      simp [io_quoted_string_eq_spec, h]
    · have h0 : iri_eq xsd_string d = false := Bool.of_not_eq_true h
      show (if iri_eq xsd_string d = false then
          [34] ++ io_quoted_string (utf8_str (TermData.as_ref txt)) ++ [34, 94, 94] ++
            Iri.write_io_bytes d else _) = _
      rw [h0]
      simp [io_quoted_string_eq_spec, h0]

/-- The byte-oriented writer's output is exactly the UTF-8 encoding of the
text-oriented writer's output, for every literal. -/
theorem write_io_eq_utf8_write_fmt {TD : Type} [TermData TD] (lit : Literal TD) :
    Literal.write_io_bytes lit = utf8_str (Literal.write_fmt lit) := by
  have hquote : utf8_list ("\"").data = [34] := by decide
  have hat : utf8_list ("\"@").data = [34, 64] := by decide
  have hcarets : utf8_list ("\"^^").data = [34, 94, 94] := by decide
  obtain ⟨txt, k⟩ := lit
  cases k with
  | Lang tag =>
    show [34] ++ io_quoted_string (utf8_str (TermData.as_ref txt)) ++ [34, 64] ++
        utf8_str (TermData.as_ref tag) =
      utf8_str ("\"" ++ String.mk (fmt_quoted_string (TermData.as_ref txt).data) ++ "\"@" ++
        TermData.as_ref tag)
    simp only [utf8_str, String.data_append, utf8_list_append]
    rw [io_fmt_quoted_string_utf8, hquote, hat]
  | Dt d =>
    by_cases h : iri_eq xsd_string d
    · show (if iri_eq xsd_string d = false then _ else
          [34] ++ io_quoted_string (utf8_str (TermData.as_ref txt)) ++ [34]) =
        utf8_str (if iri_eq xsd_string d = false then _ else
          ("\"" ++ String.mk (fmt_quoted_string (TermData.as_ref txt).data) ++ "\""))
      rw [h]
      simp only [Bool.true_eq_false, if_false]
      simp only [utf8_str, String.data_append, utf8_list_append]
      rw [io_fmt_quoted_string_utf8, hquote]
    · have h0 : iri_eq xsd_string d = false := Bool.of_not_eq_true h
      show (if iri_eq xsd_string d = false then
          [34] ++ io_quoted_string (utf8_str (TermData.as_ref txt)) ++ [34, 94, 94] ++
            Iri.write_io_bytes d else _) =
        utf8_str (if iri_eq xsd_string d = false then
          ("\"" ++ String.mk (fmt_quoted_string (TermData.as_ref txt).data) ++ "\"^^" ++
            Iri.write_fmt d) else _)
      rw [h0]
      simp only [if_true]
      show [34] ++ io_quoted_string (utf8_str (TermData.as_ref txt)) ++ [34, 94, 94] ++
          utf8_str (Iri.write_fmt d) =
        utf8_str ("\"" ++ String.mk (fmt_quoted_string (TermData.as_ref txt).data) ++ "\"^^" ++
          Iri.write_fmt d)
      simp only [utf8_str, String.data_append, utf8_list_append]
      rw [io_fmt_quoted_string_utf8, hquote, hcarets]

/-! ## Claim theorems -/

/-- Claim C1: for every pair of literals `a` and `b` (over any storage
types), `a == b` holds if and only if their lexical texts are equal and
their kinds match — `Lang` kinds by ASCII-case-insensitive tag equality,
`Dt` kinds by the IRI abstraction's equality, and never across variants. -/
theorem literal_eq_iff_text_and_kind {T U : Type} [TermData T] [TermData U]
    (a : Literal T) (b : Literal U) :
    Literal.beq a b = true ↔
      (TermData.as_ref a.txt = TermData.as_ref b.txt ∧ kinds_match_spec a.kind b.kind) := by
  obtain ⟨atxt, ak⟩ := a
  obtain ⟨btxt, bk⟩ := b
  show (TermData.as_ref atxt == TermData.as_ref btxt && Kind.beq ak bk) = true ↔ _
  rw [Bool.and_eq_true, beq_iff_eq]
  apply and_congr_right
  intro _
  cases ak <;> cases bk <;>
    simp only [Kind.beq, kinds_match_spec] <;>
    first
      | exact eq_ignore_ascii_case_iff _ _
      | exact Iff.rfl
      | simp

/-- Claim C2: every literal serializes (in both writers) as an opening
double-quote, the escaped lexical text, a closing double-quote, then `@tag`
verbatim when language-tagged, nothing when the datatype is exactly
`xsd:string`, and `^^` followed by the datatype IRI's own serialization
otherwise. -/
theorem literal_serialization_shape {TD : Type} [TermData TD] (lit : Literal TD) :
    (Literal.write_fmt lit).data =
      ('"' :: escape_spec (TermData.as_ref lit.txt).data) ++ ('"' ::
        (match lit.kind with
         | Kind.Lang tag => '@' :: (TermData.as_ref tag).data
         | Kind.Dt d =>
           if iri_eq xsd_string d = true then []
           else '^' :: '^' :: (Iri.write_fmt d).data)) ∧
    Literal.write_io_bytes lit =
      (34 :: escape_spec_byte (utf8_str (TermData.as_ref lit.txt))) ++ (34 ::
        (match lit.kind with
         | Kind.Lang tag => 64 :: utf8_str (TermData.as_ref tag)
         | Kind.Dt d =>
           if iri_eq xsd_string d = true then []
           else 94 :: 94 :: Iri.write_io_bytes d)) :=
  ⟨write_fmt_data lit, write_io_bytes_data lit⟩

/-- Claim C3: the escaping step replaces exactly newline, carriage-return,
double-quote and backslash (see `escapeChar` / `escapeByte`) and passes
every other character through, and un-escaping the quoted-string portion
recovers the original text. -/
theorem escaping_exact_and_roundtrip :
    (∀ T : List Char, fmt_quoted_string T = escape_spec T) ∧
    (∀ T : List Char, unescape (fmt_quoted_string T) = T) ∧
    (∀ B : List Nat, io_quoted_string B = escape_spec_byte B) :=
  ⟨fmt_quoted_string_eq_spec,
   fun T => by rw [fmt_quoted_string_eq_spec]; exact unescape_escape_spec T,
   io_quoted_string_eq_spec⟩

/-- Claim C4: equal literals hash identically — the hasher is fed the text
verbatim, the tag ASCII-lowercased, and the datatype IRI via its own hash
contract. -/
theorem literal_hash_consistent {T U : Type} [TermData T] [TermData U]
    (a : Literal T) (b : Literal U) (h : Literal.beq a b = true) :
    Literal.hash_bytes a = Literal.hash_bytes b := by
  obtain ⟨atxt, ak⟩ := a
  obtain ⟨btxt, bk⟩ := b
  obtain ⟨htxt, hkind⟩ := Bool.and_eq_true_iff.mp h
  rw [beq_iff_eq] at htxt
  show utf8_str (TermData.as_ref atxt) ++ _ = utf8_str (TermData.as_ref btxt) ++ _
  rw [htxt]
  congr 1
  cases ak with
  | Lang t1 =>
    cases bk with
    | Lang t2 =>
      show utf8_str (to_ascii_lowercase (TermData.as_ref t1)) =
        utf8_str (to_ascii_lowercase (TermData.as_ref t2))
      rw [(eq_ignore_ascii_case_iff (TermData.as_ref t1) (TermData.as_ref t2)).mp hkind]
    | Dt d => exact absurd hkind (by simp [Kind.beq])
  | Dt d1 =>
    cases bk with
    | Lang t2 => exact absurd hkind (by simp [Kind.beq])
    | Dt d2 =>
      show Iri.hash_bytes d1 = Iri.hash_bytes d2
      have hiri : TermData.as_ref d1.iri_txt = TermData.as_ref d2.iri_txt := by
        simpa [Kind.beq, iri_eq] using hkind
      simp [Iri.hash_bytes, hiri]

/-- Witness for C4: the literals `"chat"@en` and `"chat"@EN` are equal and
hash identically. -/
theorem literal_hash_consistent_witness :
    Literal.beq (⟨"chat", Kind.Lang ("en")⟩ : Literal String)
        (⟨"chat", Kind.Lang ("EN")⟩ : Literal String) = true ∧
      Literal.hash_bytes (⟨"chat", Kind.Lang ("en")⟩ : Literal String) =
        Literal.hash_bytes (⟨"chat", Kind.Lang ("EN")⟩ : Literal String) :=
  ⟨by decide, literal_hash_consistent _ _ (by decide)⟩

/-- Claim C5: `new_lang` fails with `InvalidLanguageTag` — carrying the
offending tag and the underlying grammar violation — exactly when the
validator rejects the tag, and on success returns a `Lang`-kinded literal
whose `lang` accessor returns exactly the given tag. -/
theorem new_lang_bcp47 (validate : String → Option String) (txt tag : String) :
    (∀ err : String,
      Literal.new_lang validate txt tag =
          Except.error (TermError.InvalidLanguageTag tag err) ↔
        validate tag = some err) ∧
    (validate tag = none →
      Literal.new_lang validate txt tag = Except.ok ⟨txt, Kind.Lang tag⟩ ∧
      Literal.lang (⟨txt, Kind.Lang tag⟩ : Literal String) = some tag) := by
  constructor
  · intro err
    unfold Literal.new_lang
    cases hv : validate tag with
    | none => simp
    | some e => simp
  · intro hv
    unfold Literal.new_lang
    rw [hv]
    exact ⟨rfl, rfl⟩

/-- Witness for C5 with a concrete validator: `en-US` is accepted with
`lang` returning the tag, and a rejected tag produces `InvalidLanguageTag`
carrying the tag and the violation. -/
theorem new_lang_bcp47_witness :
    (Literal.new_lang toy_validator ("chat") ("en-US") =
        Except.ok ⟨"chat", Kind.Lang ("en-US")⟩ ∧
      Literal.lang (⟨"chat", Kind.Lang ("en-US")⟩ : Literal String) = some ("en-US")) ∧
    Literal.new_lang toy_validator ("chat") ("not a tag!!") =
      Except.error (TermError.InvalidLanguageTag ("not a tag!!") ("unexpected character")) :=
  ⟨(new_lang_bcp47 toy_validator ("chat") ("en-US")).2 (by decide),
   ((new_lang_bcp47 toy_validator ("chat") ("not a tag!!")).1 ("unexpected character")).mpr
     (by decide)⟩

/-- Claim C6: for a literal whose text, tag and datatype are ASCII, the byte
writer's output is the UTF-8 encoding of the text writer's output; moreover
(second conjunct, for arbitrary Unicode text) the byte-level escaper applied
to the UTF-8 bytes equals the UTF-8 bytes of the character-level escaper, so
the text-oriented writer never splits a Unicode scalar: its output is a
whole-scalar sequence whose encoding the byte writer reproduces. -/
theorem writers_byte_identical {TD : Type} [TermData TD] (lit : Literal TD)
    (htxt : ∀ c ∈ (TermData.as_ref lit.txt).data, c.toNat < 128)
    (hkind : match lit.kind with
      | Kind.Lang tag => ∀ c ∈ (TermData.as_ref tag).data, c.toNat < 128
      | Kind.Dt d => ∀ c ∈ (TermData.as_ref d.iri_txt).data, c.toNat < 128) :
    Literal.write_io_bytes lit = utf8_str (Literal.write_fmt lit) ∧
    ∀ T : List Char, io_quoted_string (utf8_list T) = utf8_list (fmt_quoted_string T) :=
  ⟨write_io_eq_utf8_write_fmt lit, io_fmt_quoted_string_utf8⟩

/-- Witness for C6 at the ASCII literal `"a\n"@en`. -/
theorem writers_byte_identical_witness :
    Literal.write_io_bytes (⟨"a\n", Kind.Lang ("en")⟩ : Literal String) =
      utf8_str (Literal.write_fmt (⟨"a\n", Kind.Lang ("en")⟩ : Literal String)) :=
  (writers_byte_identical (⟨"a\n", Kind.Lang ("en")⟩ : Literal String)
    (by decide) (by decide)).1

/-- Claim C7: `clone_into` to the borrow-or-own storage `MownStr` produces a
literal whose text field is the borrowed (`Ref`), not newly allocated
(`Own`), variant, holding the source's borrowed view. -/
theorem clone_into_mown_borrows {TD : Type} [TermData TD] (lit : Literal TD) :
    (Literal.clone_into lit : Literal MownStr).txt = MownStr.Ref (TermData.as_ref lit.txt) ∧
    MownStr.is_borrowed (Literal.clone_into lit : Literal MownStr).txt = true :=
  ⟨rfl, rfl⟩

/-- Claim C8: every literal has exactly one of a language tag and an
explicit datatype, and `dt` is total — `rdf:langString` when
language-tagged, the stored IRI otherwise. -/
theorem kind_exclusive_dt_total {TD : Type} [TermData TD] (lit : Literal TD) :
    (((Literal.lang lit).isSome = true ∧ ¬ ∃ i, lit.kind = Kind.Dt i) ∨
     ((Literal.lang lit).isSome = false ∧ ∃ i, lit.kind = Kind.Dt i)) ∧
    ((Literal.lang lit).isSome = true → Literal.dt lit = rdf_langString) ∧
    (∀ i : Iri TD, lit.kind = Kind.Dt i → Literal.dt lit = Iri.as_ref_str i) := by
  obtain ⟨txt, k⟩ := lit
  cases k with
  | Lang tag =>
    refine ⟨Or.inl ⟨rfl, ?_⟩, fun _ => rfl, ?_⟩
    · rintro ⟨i, hi⟩
      exact Kind.noConfusion hi
    · intro i hi
      exact Kind.noConfusion hi
  | Dt d =>
    refine ⟨Or.inr ⟨rfl, ⟨d, rfl⟩⟩, ?_, ?_⟩
    · intro hs
      exact absurd hs (by simp [Literal.lang])
    · intro i hi
      injection hi with h
      rw [← h]
      rfl

/-- Witness for C8 at the literal `"s"@en`. -/
theorem kind_exclusive_dt_total_witness :
    Literal.dt (⟨"s", Kind.Lang ("en")⟩ : Literal String) = rdf_langString :=
  (kind_exclusive_dt_total (⟨"s", Kind.Lang ("en")⟩ : Literal String)).2.1 (by decide)

/-- Claim C9: a literal built by `new_dt` with `rdf:langString` is never
equal to any language-tagged literal (kinds of different variants never
compare equal) although `dt` returns `rdf:langString` for both, and it
serializes with an explicit `^^` suffix while the language-tagged one is
written with `@tag`. -/
theorem new_dt_langString_never_eq_lang (txt1 txt2 tag : String) :
    Literal.beq (Literal.new_dt txt1 rdf_langString) (⟨txt2, Kind.Lang tag⟩ : Literal String) = false ∧
    Literal.beq (⟨txt2, Kind.Lang tag⟩ : Literal String) (Literal.new_dt txt1 rdf_langString) = false ∧
    Literal.dt (Literal.new_dt txt1 rdf_langString) = rdf_langString ∧
    Literal.dt (⟨txt2, Kind.Lang tag⟩ : Literal String) = rdf_langString ∧
    (Literal.write_fmt (Literal.new_dt txt1 rdf_langString)).data =
      ('"' :: escape_spec txt1.data) ++ ('"' :: '^' :: '^' :: (Iri.write_fmt rdf_langString).data) ∧
    (Literal.write_fmt (⟨txt2, Kind.Lang tag⟩ : Literal String)).data =
      ('"' :: escape_spec txt2.data) ++ ('"' :: '@' :: tag.data) := by
  refine ⟨?_, ?_, rfl, rfl, ?_, ?_⟩
  · show (txt1 == txt2 && Kind.beq (Kind.Dt (Iri.map_into rdf_langString)) (Kind.Lang tag)) = false
    simp [Kind.beq]
  · show (txt2 == txt1 && Kind.beq (Kind.Lang tag) (Kind.Dt (Iri.map_into rdf_langString))) = false
    simp [Kind.beq]
  · rw [write_fmt_data (Literal.new_dt txt1 rdf_langString)]
    simp [Literal.new_dt, TermData.as_ref, Iri.map_into]
    decide
  · rw [write_fmt_data (⟨txt2, Kind.Lang tag⟩ : Literal String)]
    simp [TermData.as_ref]

/-- Claim C10: the recursive escaping helpers terminate — the cut position
lies within the input, and whenever the recursion fires (`cut + 1` strictly
inside the input) the recursive call receives a strictly shorter suffix. -/
theorem escaper_recursion_decreases (l : List Char) (bs : List Nat) :
    ((scan_cut l).1 ≤ l.length ∧
      ((scan_cut l).1 + 1 < l.length →
        (l.drop ((scan_cut l).1 + 1)).length < l.length ∧
        List.IsSuffix (l.drop ((scan_cut l).1 + 1)) l)) ∧
    ((scan_cut_byte bs).1 ≤ bs.length ∧
      ((scan_cut_byte bs).1 + 1 < bs.length →
        (bs.drop ((scan_cut_byte bs).1 + 1)).length < bs.length ∧
        List.IsSuffix (bs.drop ((scan_cut_byte bs).1 + 1)) bs)) := by
  refine ⟨⟨scan_cut_le l, fun h => ⟨?_, List.drop_suffix _ _⟩⟩,
          ⟨scan_cut_byte_le bs, fun h => ⟨?_, List.drop_suffix _ _⟩⟩⟩ <;>
    · simp only [List.length_drop]
      omega

/-- Witness for C10 on the input `a\nb` (characters and bytes). -/
theorem escaper_recursion_decreases_witness :
    (List.drop ((scan_cut ['a', '\n', 'b']).1 + 1) ['a', '\n', 'b']).length <
      (['a', '\n', 'b'] : List Char).length ∧
    (List.drop ((scan_cut_byte [97, 10, 98]).1 + 1) [97, 10, 98]).length <
      ([97, 10, 98] : List Nat).length :=
  ⟨((escaper_recursion_decreases ['a', '\n', 'b'] [97, 10, 98]).1.2 (by decide)).1,
   ((escaper_recursion_decreases ['a', '\n', 'b'] [97, 10, 98]).2.2 (by decide)).1⟩
